import Mathlib

/-!
Shallow embedding of `src/tracker.py` (class `MisinformationTracker`) and
verification of the specification's claims about it.

Conventions of the embedding:
* a Python post dict becomes the structure `Post`; Python `!=` on post dicts
  is decidable structural inequality on `Post`;
* `networkx.Graph` becomes `Graph`: a node list in insertion order plus an
  edge list in insertion order, where an edge is an unordered pair (stored as
  the ordered pair that `add_edge` received first) and adding an existing
  edge or node is a no-op, matching networkx's set semantics;
* Python `float` arithmetic on the small integers of this program is exact,
  so averages, centralities and densities are embedded as `ℚ`;
* Python `collections.Counter` built from a list is an association list whose
  keys appear in first-occurrence order, each paired with its multiplicity;
  `most_common(n)`/`sorted(..., reverse=True)` are a stable descending
  insertion sort followed by `take n`;
* code that can raise (`analyze_engagement` divides by `len(self.data)`)
  returns an `Option`, `none` marking the raised exception.
-/

namespace Tracker

/-- The `engagement` sub-dict of a post: `{'likes': ..., 'shares': ...}`. -/
structure Engagement where
  likes : Nat
  shares : Nat
deriving DecidableEq, Repr

/-- A post record as produced in `collect_posts` (src/tracker.py lines 22-30). -/
structure Post where
  timestamp : String
  platform : String
  content : String
  user : String
  engagement : Engagement
  links : List String
  hashtags : List String
deriving DecidableEq, Repr

/-- `networkx.Graph`: nodes in insertion order, deduplicated; edges in
insertion order, each an unordered pair of nodes, deduplicated. -/
structure Graph where
  nodes : List String
  edges : List (String × String)
deriving DecidableEq, Repr

/-- The empty graph `nx.Graph()` (src/tracker.py line 15). -/
def emptyGraph : Graph := { nodes := [], edges := [] }

/-- `G.add_node u`: appends `u` to the node list unless already present. -/
def addNode (g : Graph) (u : String) : Graph :=
  if u ∈ g.nodes then g else { g with nodes := g.nodes ++ [u] }

/-- Membership of the unordered pair `{u, v}` in an edge list. -/
def hasEdge (es : List (String × String)) (u v : String) : Bool :=
  es.any fun e => (e.1 = u ∧ e.2 = v) ∨ (e.1 = v ∧ e.2 = u)

/-- `G.add_edge u v`: adds both endpoints as nodes if absent, then appends
the edge unless the unordered pair is already present. -/
def addEdge (g : Graph) (u v : String) : Graph :=
  if hasEdge (addNode (addNode g u) v).edges u v then addNode (addNode g u) v
  else { addNode (addNode g u) v with
          edges := (addNode (addNode g u) v).edges ++ [(u, v)] }

/-- `set(post['hashtags']).intersection(other_post['hashtags'])` is truthy,
i.e. the two posts share at least one hashtag (src/tracker.py line 40). -/
def sharesTag (p q : Post) : Bool :=
  p.hashtags.any fun t => decide (t ∈ q.hashtags)

/-- The inner loop of `analyze_network`'s graph construction: for one fixed
`post`, iterate over every `other_post` in the batch and add an edge between
the two authors when the posts are distinct and share a hashtag
(src/tracker.py lines 37-42). -/
def innerLoop (g : Graph) (post : Post) : List Post → Graph
  | [] => g
  | other :: rest =>
      innerLoop
        (if post ≠ other then
          (if sharesTag post other then addEdge g post.user other.user else g)
        else g)
        post rest

/-- The outer loop of `analyze_network`'s graph construction: for each post of
the batch, add its author as a node and run the inner loop over the whole
batch (src/tracker.py lines 35-42). -/
def outerLoop (full : List Post) (g : Graph) : List Post → Graph
  | [] => g
  | post :: rest => outerLoop full (innerLoop (addNode g post.user) post full) rest

/-- The graph-construction phase of `analyze_network`, starting from the
tracker's current graph `g` (the loops mutate `self.network` in place). -/
def buildNetwork (g : Graph) (data : List Post) : Graph :=
  outerLoop data g data

/-- `G.degree(u)` in networkx: the number of neighbours, a self-loop
counting twice. -/
def degree (g : Graph) (u : String) : Nat :=
  (g.nodes.filter fun v => hasEdge g.edges u v).length
    + (if hasEdge g.edges u u then 1 else 0)

/-- `nx.degree_centrality` (networkx `degree_alg.py`): for a graph with at
most one node every node gets centrality `1`; otherwise each node gets
`degree / (n - 1)`. -/
def degreeCentrality (g : Graph) : List (String × ℚ) :=
  if g.nodes.length ≤ 1 then g.nodes.map fun n => (n, 1)
  else g.nodes.map fun n => (n, (degree g n : ℚ) / ((g.nodes.length : ℚ) - 1))

/-- `nx.density` (networkx `function.py`): `0` when there are no edges or at
most one node, else `2m / (n(n-1))` for an undirected graph. -/
def density (g : Graph) : ℚ :=
  if g.edges.length = 0 ∨ g.nodes.length ≤ 1 then 0
  else 2 * (g.edges.length : ℚ)
        / ((g.nodes.length : ℚ) * ((g.nodes.length : ℚ) - 1))

/-- Stable descending insertion of a key-value pair: the new element is placed
before the first element whose value it is `≥`, so on ties an element coming
from earlier in the original list stays earlier. -/
def insDesc {β : Type} [LinearOrder β] (x : α × β) : List (α × β) → List (α × β)
  | [] => [x]
  | y :: ys => if y.2 ≤ x.2 then x :: y :: ys else y :: insDesc x ys

/-- Stable descending sort by value, the semantics of Python's
`sorted(..., key=lambda x: x[1], reverse=True)` and of
`Counter.most_common` (before truncation): ties keep their input order. -/
def sortDesc {β : Type} [LinearOrder β] : List (α × β) → List (α × β)
  | [] => []
  | x :: xs => insDesc x (sortDesc xs)

/-- Fuelled helper for `keysInOrder`; the fuel only bounds the recursion
depth and `l.length` fuel is always enough. -/
def keysInOrderAux [DecidableEq α] : Nat → List α → List α
  | 0, _ => []
  | _ + 1, [] => []
  | fuel + 1, x :: xs => x :: keysInOrderAux fuel (xs.filter fun y => y ≠ x)

/-- The distinct elements of a list in first-occurrence order — the key order
of a Python dict/`Counter` built by iterating the list. -/
def keysInOrder [DecidableEq α] (l : List α) : List α := keysInOrderAux l.length l

/-- `collections.Counter(xs)` as an association list: the keys in
first-occurrence order, each paired with its number of occurrences. -/
def tally [DecidableEq α] (xs : List α) : List (α × Nat) :=
  (keysInOrder xs).map fun k => (k, xs.count k)

/-- `Counter(xs).most_common n`: stable descending sort of the counts,
truncated to the `n` most frequent entries. -/
def mostCommon [DecidableEq α] (xs : List α) (n : Nat) : List (α × Nat) :=
  (sortDesc (tally xs)).take n

/-- A word character of the regex `\w` (ASCII range): alphanumeric or
underscore. -/
def isWordChar (c : Char) : Bool := c.isAlphanum || c = '_'

/-- Helper for `wordTokens`: scans the character list, accumulating the
current (reversed) run of word characters. -/
def tokenizeAux : List Char → List Char → List String
  | [], acc => if acc.isEmpty then [] else [String.mk acc.reverse]
  | c :: cs, acc =>
      if isWordChar c then tokenizeAux cs (c :: acc)
      else (if acc.isEmpty then [] else [String.mk acc.reverse]) ++ tokenizeAux cs []

/-- `re.findall(r'\w+', s)`: the maximal nonempty runs of word characters. -/
def wordTokens (s : String) : List String := tokenizeAux s.data []

/-- Python `str.lower()` applied character by character. -/
def strLower (s : String) : String := String.mk (s.data.map Char.toLower)

/-- The word-token list of `identify_narratives`: concatenate all post
contents with spaces, lower-case, tokenize (src/tracker.py lines 57-58). -/
def narrativeWords (data : List Post) : List String :=
  wordTokens (strLower (String.intercalate " " (data.map fun p => p.content)))

/-- The flattened hashtag list of `identify_narratives`
(src/tracker.py line 61). -/
def allHashtags (data : List Post) : List String :=
  data.flatMap fun p => p.hashtags

/-- The result dict of `identify_narratives`. -/
structure NarrativeAnalysis where
  common_words : List (String × Nat)
  common_hashtags : List (String × Nat)
deriving DecidableEq, Repr

/-- `identify_narratives` (src/tracker.py lines 55-67): the 20 most common
words of all contents and the 10 most common hashtags. -/
def identifyNarratives (data : List Post) : NarrativeAnalysis :=
  { common_words := mostCommon (narrativeWords data) 20
    common_hashtags := mostCommon (allHashtags data) 10 }

/-- The result dict of `analyze_engagement`. -/
structure EngagementStats where
  total_likes : Nat
  total_shares : Nat
  avg_engagement : ℚ
deriving DecidableEq, Repr

/-- `analyze_engagement` (src/tracker.py lines 69-78): sums of likes and
shares, and the average of `likes + shares` per post.  Dividing by
`len(self.data)` raises `ZeroDivisionError` on an empty batch, embedded as
`none`. -/
def analyzeEngagement (data : List Post) : Option EngagementStats :=
  if data.length = 0 then none
  else some
    { total_likes := (data.map fun p => p.engagement.likes).sum
      total_shares := (data.map fun p => p.engagement.shares).sum
      avg_engagement :=
        ((((data.map fun p => p.engagement.likes + p.engagement.shares).sum : Nat) : ℚ))
          / (data.length : ℚ) }

/-- Number of edges with both endpoints inside the community `c`. -/
def intraEdges (g : Graph) (c : List String) : Nat :=
  (g.edges.filter fun e => e.1 ∈ c ∧ e.2 ∈ c).length

/-- Sum of the degrees of the members of community `c`. -/
def commDegree (g : Graph) (c : List String) : Nat :=
  (c.map fun u => degree g u).sum

/-- Modelled from the spec: the modularity quality function used by
`nx.community.greedy_modularity_communities`, whose library source is not
part of this repository.  For a partition `cs` of the nodes,
`Q = Σ_c (L_c / m − (d_c / 2m)²)` with `m` the edge count, `L_c` the
intra-community edge count and `d_c` the community degree sum.  With `ℚ`'s
division-by-zero convention this is `0` for an edgeless graph, under which
no merge ever strictly improves modularity, matching the spec's "community
detection on an edgeless graph yields one community per node". -/
def modularity (g : Graph) (cs : List (List String)) : ℚ :=
  let m : ℚ := (g.edges.length : Nat)
  (cs.map fun c =>
    ((intraEdges g c : Nat) : ℚ) / m - (((commDegree g c : Nat) : ℚ) / (2 * m)) ^ 2).sum

/-- All partitions obtained from `cs` by merging the head community `c` with
one of the later communities, keeping every other community in place. -/
def mergeWithEach (c : List String) : List (List String) → List (List (List String))
  | [] => []
  | d :: rest => ((c ++ d) :: rest) :: (mergeWithEach c rest).map fun p => d :: p

/-- All partitions obtained from `cs` by merging one unordered pair of its
communities. -/
def mergeCandidates : List (List String) → List (List (List String))
  | [] => []
  | c :: rest => mergeWithEach c rest ++ (mergeCandidates rest).map fun p => c :: p

/-- First maximiser of `f` over a list (ties keep the earliest candidate). -/
def argmaxBy {α : Type} (f : α → ℚ) : List α → Option α
  | [] => none
  | x :: xs =>
      match argmaxBy f xs with
      | none => some x
      | some y => if f x < f y then some y else some x

/-- Modelled from the spec: one step of greedy modularity maximization —
merge the pair of communities that most increases modularity, or stop
(`none`) when no merge strictly improves it. -/
def greedyStep (g : Graph) (cs : List (List String)) : Option (List (List String)) :=
  match argmaxBy (modularity g) (mergeCandidates cs) with
  | none => none
  | some best => if modularity g cs < modularity g best then some best else none

/-- Fuelled iteration of `greedyStep`; `n` merges suffice for `n` nodes. -/
def greedySteps (g : Graph) : Nat → List (List String) → List (List String)
  | 0, cs => cs
  | fuel + 1, cs =>
      match greedyStep g cs with
      | none => cs
      | some cs2 => greedySteps g fuel cs2

/-- Modelled from the spec:
`nx.community.greedy_modularity_communities` — "iteratively merge the pair of
communities that most increases modularity until no merge improves it,
starting from singleton communities". -/
def communities (g : Graph) : List (List String) :=
  greedySteps g g.nodes.length (g.nodes.map fun n => [n])

/-- The result dict of `analyze_network`. -/
structure NetworkAnalysis where
  central_nodes : List (String × ℚ)
  community_count : Nat
  density : ℚ
deriving DecidableEq, Repr

/-- The metrics part of `analyze_network` (src/tracker.py lines 45-53):
top-10 nodes by degree centrality (stable descending sort), the number of
greedy-modularity communities, and the density. -/
def networkMetrics (g : Graph) : NetworkAnalysis :=
  { central_nodes := (sortDesc (degreeCentrality g)).take 10
    community_count := (communities g).length
    density := density g }

/-- The `i`-th synthetic post of `collect_posts` (src/tracker.py lines 22-30).
`datetime.now().isoformat()` is evaluated once per generated post; the clock
is abstracted as `ts`, giving the `i`-th post's timestamp string. -/
def genPost (ts : Nat → String) (keywords platform : String) (i : Nat) : Post :=
  { timestamp := ts i
    platform := platform
    content := "Sample post containing " ++ keywords
    user := "user_" ++ toString i
    engagement := { likes := i * 10, shares := i * 2 }
    links := ["http://example" ++ toString i ++ ".com"]
    hashtags := ["#" ++ keywords, "#sample"] }

/-- `collect_posts` (src/tracker.py lines 17-31): the synthetic batch for a
keyword, platform and count. -/
def collectPosts (ts : Nat → String) (keywords platform : String) (limit : Nat) :
    List Post :=
  (List.range limit).map (genPost ts keywords platform)

/-- The mutable fields of a `MisinformationTracker` instance. -/
structure TrackerState where
  data : List Post
  network : Graph
deriving DecidableEq, Repr

/-- `MisinformationTracker.__init__` (src/tracker.py lines 13-15). -/
def initTracker : TrackerState := { data := [], network := emptyGraph }

/-- `collect_posts` as a state transformer: replaces `self.data`. -/
def collectPostsM (s : TrackerState) (ts : Nat → String) (keywords platform : String)
    (limit : Nat) : TrackerState :=
  { s with data := collectPosts ts keywords platform limit }

/-- `analyze_network` as a state transformer: mutates `self.network` by
adding the batch's nodes and edges, then returns the metrics of the
resulting graph. -/
def analyzeNetworkM (s : TrackerState) : TrackerState × NetworkAnalysis :=
  let g := buildNetwork s.network s.data
  ({ s with network := g }, networkMetrics g)

/-- `identify_narratives` as a state transformer: reads `self.data`,
assigns no instance field. -/
def identifyNarrativesM (s : TrackerState) : TrackerState × NarrativeAnalysis :=
  (s, identifyNarratives s.data)

/-- `analyze_engagement` as a state transformer: reads `self.data`,
assigns no instance field. -/
def analyzeEngagementM (s : TrackerState) : TrackerState × Option EngagementStats :=
  (s, analyzeEngagement s.data)

/-- The report dict of `generate_report`, `timestamp` abstracting
`datetime.now().isoformat()`. -/
structure Report where
  timestamp : String
  data_points : Nat
  network_analysis : NetworkAnalysis
  narrative_analysis : NarrativeAnalysis
  engagement_analysis : EngagementStats
deriving DecidableEq, Repr

/-- `generate_report` (src/tracker.py lines 80-94): run the three analyses
in order and assemble the report; `none` when `analyze_engagement` raises
(empty batch). -/
def generateReportM (s : TrackerState) (now : String) : TrackerState × Option Report :=
  let (s1, net) := analyzeNetworkM s
  let (s2, narr) := identifyNarrativesM s1
  let (s3, engOpt) := analyzeEngagementM s2
  match engOpt with
  | none => (s3, none)
  | some eng =>
      (s3, some
        { timestamp := now
          data_points := s3.data.length
          network_analysis := net
          narrative_analysis := narr
          engagement_analysis := eng })

/-- All report fields except the timestamp-valued one. -/
def reportCore (r : Report) :
    Nat × NetworkAnalysis × NarrativeAnalysis × EngagementStats :=
  (r.data_points, r.network_analysis, r.narrative_analysis, r.engagement_analysis)

/-- The apostrophe, `\x7b` and `\x7d` characters used by Python's `str()` of
dicts and lists. -/
def sq : String := String.singleton (Char.ofNat 39)

/-- Left curly bracket as a string. -/
def lb : String := String.singleton (Char.ofNat 123)

/-- Right curly bracket as a string. -/
def rb : String := String.singleton (Char.ofNat 125)

/-- Python `str()` of a string inside a container: quoted (escaping of the
quoted text is irrelevant to the claims and not modelled). -/
def pyStrRepr (s : String) : String := sq ++ s ++ sq

/-- Python `str()` of a list of strings. -/
def pyListRepr (l : List String) : String :=
  "[" ++ String.intercalate ", " (l.map pyStrRepr) ++ "]"

/-- Python `str()` of the engagement dict, as `csv.DictWriter` serializes
it into a single cell. -/
def pyEngRepr (e : Engagement) : String :=
  lb ++ pyStrRepr "likes" ++ ": " ++ toString e.likes ++ ", "
     ++ pyStrRepr "shares" ++ ": " ++ toString e.shares ++ rb

/-- The fixed CSV header of `export_data` (src/tracker.py lines 112-113). -/
def csvHeader : List String :=
  ["timestamp", "platform", "content", "user", "engagement", "links", "hashtags"]

/-- One CSV data row per post, cells in header order. -/
def csvRow (p : Post) : List String :=
  [p.timestamp, p.platform, p.content, p.user,
   pyEngRepr p.engagement, pyListRepr p.links, pyListRepr p.hashtags]

/-- `export_data` (src/tracker.py lines 109-115): the CSV records written,
header first, then one row per post in batch order. -/
def exportData (data : List Post) : List (List String) :=
  csvHeader :: data.map csvRow

/-! ### Lemmas about the graph operations -/

theorem addNode_edges (g : Graph) (u : String) : (addNode g u).edges = g.edges := by
  unfold addNode; split <;> rfl

theorem mem_addNode_self (g : Graph) (u : String) : u ∈ (addNode g u).nodes := by
  unfold addNode; split
  · assumption
  · simp

theorem mem_addNode_mono (g : Graph) (u a : String) (h : a ∈ g.nodes) :
    a ∈ (addNode g u).nodes := by
  unfold addNode; split
  · exact h
  · simp [h]

theorem hasEdge_iff (es : List (String × String)) (u v : String) :
    hasEdge es u v = true ↔
      ∃ e ∈ es, (e.1 = u ∧ e.2 = v) ∨ (e.1 = v ∧ e.2 = u) := by
  unfold hasEdge
  simp [List.any_eq_true]

theorem hasEdge_symm (es : List (String × String)) (u v : String) :
    hasEdge es u v = true ↔ hasEdge es v u = true := by
  rw [hasEdge_iff, hasEdge_iff]
  constructor <;> (rintro ⟨e, he, h | h⟩)
  · exact ⟨e, he, Or.inr h⟩
  · exact ⟨e, he, Or.inl h⟩
  · exact ⟨e, he, Or.inr h⟩
  · exact ⟨e, he, Or.inl h⟩

theorem hasEdge_addEdge_mono (g : Graph) (u v a b : String)
    (h : hasEdge g.edges a b = true) : hasEdge (addEdge g u v).edges a b = true := by
  unfold addEdge
  rw [hasEdge_iff] at h ⊢
  obtain ⟨e, he, hor⟩ := h
  split
  · exact ⟨e, by simpa [addNode_edges] using he, hor⟩
  · exact ⟨e, by simp [addNode_edges, he], hor⟩

theorem hasEdge_addEdge_self (g : Graph) (u v : String) :
    hasEdge (addEdge g u v).edges u v = true := by
  unfold addEdge
  split
  · assumption
  · rw [hasEdge_iff]
    exact ⟨(u, v), by simp, Or.inl ⟨rfl, rfl⟩⟩

theorem mem_addEdge_mono (g : Graph) (u v a : String) (h : a ∈ g.nodes) :
    a ∈ (addEdge g u v).nodes := by
  unfold addEdge
  have : a ∈ (addNode (addNode g u) v).nodes :=
    mem_addNode_mono _ _ _ (mem_addNode_mono _ _ _ h)
  split
  · exact this
  · exact this

theorem hasEdge_addEdge_elim (g : Graph) (u v a b : String)
    (h : hasEdge (addEdge g u v).edges a b = true) :
    hasEdge g.edges a b = true ∨ ((a = u ∧ b = v) ∨ (a = v ∧ b = u)) := by
  unfold addEdge at h
  split at h
  · left; simpa [addNode_edges] using h
  · rw [hasEdge_iff] at h
    obtain ⟨e, he, hor⟩ := h
    simp only [addNode_edges, List.mem_append, List.mem_singleton] at he
    rcases he with he | rfl
    · left; rw [hasEdge_iff]; exact ⟨e, he, hor⟩
    · right
      rcases hor with ⟨h1, h2⟩ | ⟨h1, h2⟩
      · exact Or.inl ⟨h1.symm, h2.symm⟩
      · exact Or.inr ⟨h2.symm, h1.symm⟩

theorem innerLoop_hasEdge_mono (p : Post) (l : List Post) (g : Graph) (a b : String)
    (h : hasEdge g.edges a b = true) : hasEdge (innerLoop g p l).edges a b = true := by
  induction l generalizing g with
  | nil => exact h
  | cons o rest ih =>
      unfold innerLoop
      apply ih
      split
      · split
        · exact hasEdge_addEdge_mono _ _ _ _ _ h
        · exact h
      · exact h

theorem innerLoop_mem_mono (p : Post) (l : List Post) (g : Graph) (a : String)
    (h : a ∈ g.nodes) : a ∈ (innerLoop g p l).nodes := by
  induction l generalizing g with
  | nil => exact h
  | cons o rest ih =>
      unfold innerLoop
      apply ih
      split
      · split
        · exact mem_addEdge_mono _ _ _ _ h
        · exact h
      · exact h

theorem innerLoop_adds (p : Post) (l : List Post) (g : Graph) (o : Post)
    (ho : o ∈ l) (hne : p ≠ o) (hst : sharesTag p o = true) :
    hasEdge (innerLoop g p l).edges p.user o.user = true := by
  induction l generalizing g with
  | nil => cases ho
  | cons o1 rest ih =>
      unfold innerLoop
      rcases List.mem_cons.mp ho with rfl | ho'
      · apply innerLoop_hasEdge_mono
        rw [if_pos hne, if_pos hst]
        exact hasEdge_addEdge_self _ _ _
      · exact ih _ ho'

theorem innerLoop_hasEdge_elim (p : Post) (l : List Post) (g : Graph) (a b : String)
    (h : hasEdge (innerLoop g p l).edges a b = true) :
    hasEdge g.edges a b = true ∨
      ∃ o ∈ l, p ≠ o ∧ sharesTag p o = true ∧
        ((a = p.user ∧ b = o.user) ∨ (a = o.user ∧ b = p.user)) := by
  induction l generalizing g with
  | nil => exact Or.inl h
  | cons o1 rest ih =>
      unfold innerLoop at h
      rcases ih _ h with h' | ⟨o, ho, h1, h2, h3⟩
      · split at h'
        · split at h'
          · rcases hasEdge_addEdge_elim _ _ _ _ _ h' with h'' | h''
            · exact Or.inl h''
            · exact Or.inr ⟨o1, List.mem_cons_self .., ‹_›, ‹_›, h''⟩
          · exact Or.inl h'
        · exact Or.inl h'
      · exact Or.inr ⟨o, List.mem_cons_of_mem _ ho, h1, h2, h3⟩

theorem outerLoop_hasEdge_mono (full rem : List Post) (g : Graph) (a b : String)
    (h : hasEdge g.edges a b = true) : hasEdge (outerLoop full g rem).edges a b = true := by
  induction rem generalizing g with
  | nil => exact h
  | cons p rest ih =>
      unfold outerLoop
      apply ih
      apply innerLoop_hasEdge_mono
      rwa [addNode_edges]

theorem outerLoop_mem_mono (full rem : List Post) (g : Graph) (a : String)
    (h : a ∈ g.nodes) : a ∈ (outerLoop full g rem).nodes := by
  induction rem generalizing g with
  | nil => exact h
  | cons p rest ih =>
      unfold outerLoop
      exact ih _ (innerLoop_mem_mono _ _ _ _ (mem_addNode_mono _ _ _ h))

theorem outerLoop_mem_user (full rem : List Post) (g : Graph) (p : Post)
    (hp : p ∈ rem) : p.user ∈ (outerLoop full g rem).nodes := by
  induction rem generalizing g with
  | nil => cases hp
  | cons p1 rest ih =>
      unfold outerLoop
      rcases List.mem_cons.mp hp with rfl | hp'
      · exact outerLoop_mem_mono _ _ _ _
          (innerLoop_mem_mono _ _ _ _ (mem_addNode_self _ _))
      · exact ih _ hp'

theorem outerLoop_complete (full rem : List Post) (g : Graph) (p q : Post)
    (hp : p ∈ rem) (hq : q ∈ full) (hne : p ≠ q) (hst : sharesTag p q = true) :
    hasEdge (outerLoop full g rem).edges p.user q.user = true := by
  induction rem generalizing g with
  | nil => cases hp
  | cons p1 rest ih =>
      unfold outerLoop
      rcases List.mem_cons.mp hp with rfl | hp'
      · exact outerLoop_hasEdge_mono _ _ _ _ _ (innerLoop_adds _ _ _ _ hq hne hst)
      · exact ih _ hp'

theorem outerLoop_hasEdge_elim (full rem : List Post) (g : Graph) (a b : String)
    (h : hasEdge (outerLoop full g rem).edges a b = true) :
    hasEdge g.edges a b = true ∨
      ∃ p ∈ rem, ∃ o ∈ full, p ≠ o ∧ sharesTag p o = true ∧
        ((a = p.user ∧ b = o.user) ∨ (a = o.user ∧ b = p.user)) := by
  induction rem generalizing g with
  | nil => exact Or.inl h
  | cons p1 rest ih =>
      unfold outerLoop at h
      rcases ih _ h with h' | ⟨p, hp, o, ho, h1, h2, h3⟩
      · rcases innerLoop_hasEdge_elim _ _ _ _ _ h' with h'' | ⟨o, ho, h1, h2, h3⟩
        · left; rwa [addNode_edges] at h''
        · exact Or.inr ⟨p1, List.mem_cons_self .., o, ho, h1, h2, h3⟩
      · exact Or.inr ⟨p, List.mem_cons_of_mem _ hp, o, ho, h1, h2, h3⟩

theorem sharesTag_symm (p q : Post) (h : sharesTag p q = true) : sharesTag q p = true := by
  unfold sharesTag at h ⊢
  simp only [List.any_eq_true, decide_eq_true_eq] at h ⊢
  obtain ⟨t, ht, ht'⟩ := h
  exact ⟨t, ht', ht⟩

/-! ### The structural invariant of built graphs -/

/-- `f` denotes the same unordered pair as `e`. -/
def edgeSame (e f : String × String) : Prop :=
  (f.1 = e.1 ∧ f.2 = e.2) ∨ (f.1 = e.2 ∧ f.2 = e.1)

/-- Well-formedness of a `Graph` as networkx maintains it: nodes are
deduplicated, edge endpoints are nodes, and no unordered pair occurs twice
in the edge list. -/
def GraphInv (g : Graph) : Prop :=
  g.nodes.Nodup ∧ (∀ e ∈ g.edges, e.1 ∈ g.nodes ∧ e.2 ∈ g.nodes) ∧
    List.Pairwise (fun e f => ¬ edgeSame e f) g.edges

theorem graphInv_empty : GraphInv emptyGraph := by
  refine ⟨List.nodup_nil, ?_, List.Pairwise.nil⟩
  intro e he
  cases he

theorem graphInv_addNode (g : Graph) (u : String) (h : GraphInv g) :
    GraphInv (addNode g u) := by
  obtain ⟨h1, h2, h3⟩ := h
  unfold addNode
  split
  · exact ⟨h1, h2, h3⟩
  · refine ⟨?_, ?_, h3⟩
    · simpa [List.nodup_append] using ⟨h1, ‹_›⟩
    · intro e he
      obtain ⟨he1, he2⟩ := h2 e he
      simp only [List.mem_append]
      exact ⟨Or.inl he1, Or.inl he2⟩

theorem graphInv_addEdge (g : Graph) (u v : String) (h : GraphInv g) :
    GraphInv (addEdge g u v) := by
  have hnn := graphInv_addNode _ v (graphInv_addNode _ u h)
  obtain ⟨h1, h2, h3⟩ := hnn
  unfold addEdge
  split
  · exact ⟨h1, h2, h3⟩
  · refine ⟨h1, ?_, ?_⟩
    · intro e he
      simp only [List.mem_append, List.mem_singleton] at he
      rcases he with he | rfl
      · exact h2 e he
      · refine ⟨mem_addNode_mono _ _ _ (mem_addNode_self _ _), mem_addNode_self _ _⟩
    · rw [List.pairwise_append]
      refine ⟨h3, List.pairwise_singleton _ _, ?_⟩
      intro e he f hf
      rw [List.mem_singleton] at hf
      subst hf
      intro hsame
      rename_i hne
      apply absurd _ hne
      rw [hasEdge_iff]
      rcases hsame with ⟨hs1, hs2⟩ | ⟨hs1, hs2⟩
      · exact ⟨e, he, Or.inl ⟨hs1.symm, hs2.symm⟩⟩
      · exact ⟨e, he, Or.inr ⟨hs2.symm, hs1.symm⟩⟩

theorem graphInv_innerLoop (p : Post) (l : List Post) (g : Graph) (h : GraphInv g) :
    GraphInv (innerLoop g p l) := by
  induction l generalizing g with
  | nil => exact h
  | cons o rest ih =>
      unfold innerLoop
      apply ih
      split
      · split
        · exact graphInv_addEdge _ _ _ h
        · exact h
      · exact h

theorem graphInv_outerLoop (full rem : List Post) (g : Graph) (h : GraphInv g) :
    GraphInv (outerLoop full g rem) := by
  induction rem generalizing g with
  | nil => exact h
  | cons p rest ih =>
      unfold outerLoop
      exact ih _ (graphInv_innerLoop _ _ _ (graphInv_addNode _ _ h))

theorem graphInv_buildNetwork (g : Graph) (data : List Post) (h : GraphInv g) :
    GraphInv (buildNetwork g data) :=
  graphInv_outerLoop _ _ _ h

/-! ### Counting: a deduplicated loop-free edge list has at most n(n-1)/2 edges -/

/-- Both orientations of every edge, as one flat list. -/
def orientations (es : List (String × String)) : List (String × String) :=
  es.flatMap fun e => [(e.1, e.2), (e.2, e.1)]

theorem orientations_length (es : List (String × String)) :
    (orientations es).length = 2 * es.length := by
  induction es with
  | nil => rfl
  | cons e rest ih =>
      simp only [orientations, List.flatMap_cons] at ih ⊢
      simp [ih]
      omega

theorem mem_orientations (es : List (String × String)) (a b : String) :
    (a, b) ∈ orientations es ↔ ∃ e ∈ es, (e.1 = a ∧ e.2 = b) ∨ (e.1 = b ∧ e.2 = a) := by
  unfold orientations
  rw [List.mem_flatMap]
  constructor
  · rintro ⟨e, he, hm⟩
    simp only [List.mem_cons, List.mem_singleton, List.not_mem_nil, or_false] at hm
    rcases hm with hm | hm
    · exact ⟨e, he, Or.inl ⟨(congrArg Prod.fst hm).symm, (congrArg Prod.snd hm).symm⟩⟩
    · exact ⟨e, he, Or.inr ⟨(congrArg Prod.snd hm).symm, (congrArg Prod.fst hm).symm⟩⟩
  · rintro ⟨e, he, ⟨h1, h2⟩ | ⟨h1, h2⟩⟩
    · exact ⟨e, he, by simp [h1, h2]⟩
    · exact ⟨e, he, by simp [h1, h2]⟩

theorem orientations_nodup (es : List (String × String))
    (hpw : List.Pairwise (fun e f => ¬ edgeSame e f) es)
    (hns : ∀ e ∈ es, e.1 ≠ e.2) : (orientations es).Nodup := by
  induction es with
  | nil => exact List.nodup_nil
  | cons e rest ih =>
      rw [List.pairwise_cons] at hpw
      obtain ⟨hhead, htail⟩ := hpw
      have hne : e.1 ≠ e.2 := hns e (List.mem_cons_self ..)
      have hrest : (orientations rest).Nodup :=
        ih htail (fun f hf => hns f (List.mem_cons_of_mem _ hf))
      have h1 : (e.1, e.2) ∉ orientations rest := by
        rw [mem_orientations]
        rintro ⟨f, hf, ⟨hf1, hf2⟩ | ⟨hf1, hf2⟩⟩
        · exact hhead f hf (Or.inl ⟨hf1, hf2⟩)
        · exact hhead f hf (Or.inr ⟨hf1, hf2⟩)
      have h2 : (e.2, e.1) ∉ orientations rest := by
        rw [mem_orientations]
        rintro ⟨f, hf, ⟨hf1, hf2⟩ | ⟨hf1, hf2⟩⟩
        · exact hhead f hf (Or.inr ⟨hf1, hf2⟩)
        · exact hhead f hf (Or.inl ⟨hf1, hf2⟩)
      have h3 : (e.1, e.2) ≠ (e.2, e.1) := by
        intro hcon
        exact hne (congrArg Prod.fst hcon)
      simp only [orientations, List.flatMap_cons]
      refine List.Nodup.append ?_ hrest ?_
      · simp [h3]
      · intro x hx
        simp only [List.mem_cons, List.mem_singleton, List.not_mem_nil, or_false] at hx
        rcases hx with rfl | rfl
        · exact h1
        · exact h2

theorem edges_count_bound (g : Graph) (hinv : GraphInv g)
    (hns : ∀ e ∈ g.edges, e.1 ≠ e.2) :
    2 * g.edges.length ≤ g.nodes.length * (g.nodes.length - 1) := by
  obtain ⟨hnodes, hmem, hpw⟩ := hinv
  have hnd : (orientations g.edges).Nodup := orientations_nodup _ hpw hns
  have hsub : (orientations g.edges).toFinset ⊆ g.nodes.toFinset.offDiag := by
    intro x hx
    rw [List.mem_toFinset] at hx
    obtain ⟨a, b⟩ := x
    rw [mem_orientations] at hx
    obtain ⟨e, he, hor⟩ := hx
    obtain ⟨he1, he2⟩ := hmem e he
    have hene := hns e he
    rw [Finset.mem_offDiag]
    rcases hor with ⟨h1, h2⟩ | ⟨h1, h2⟩
    · exact ⟨by rw [List.mem_toFinset]; rwa [h1] at he1,
        by rw [List.mem_toFinset]; rwa [h2] at he2, by rw [← h1, ← h2]; exact hene⟩
    · exact ⟨by rw [List.mem_toFinset]; rwa [h2] at he2,
        by rw [List.mem_toFinset]; rwa [h1] at he1,
        by rw [← h1, ← h2]; exact fun hc => hene hc.symm⟩
  have hcard1 : (orientations g.edges).toFinset.card = 2 * g.edges.length := by
    rw [List.toFinset_card_of_nodup hnd, orientations_length]
  have hcard2 : g.nodes.toFinset.offDiag.card
      = g.nodes.length * g.nodes.length - g.nodes.length := by
    rw [Finset.offDiag_card, List.toFinset_card_of_nodup hnodes]
  have hle := Finset.card_le_card hsub
  rw [hcard1, hcard2] at hle
  have : g.nodes.length * (g.nodes.length - 1)
      = g.nodes.length * g.nodes.length - g.nodes.length := by
    cases g.nodes.length with
    | zero => rfl
    | succ n => simp [Nat.succ_sub_one, Nat.mul_succ]
  omega

theorem filter_length_le_of_not (l : List α) (P : α → Bool) (u : α)
    (hu : u ∈ l) (hPu : P u = false) : (l.filter P).length ≤ l.length - 1 := by
  induction l with
  | nil => cases hu
  | cons a rest ih =>
      rcases List.mem_cons.mp hu with rfl | hu'
      · rw [List.filter_cons_of_neg (by simp [hPu])]
        have := List.length_filter_le P rest
        simp only [List.length_cons]
        omega
      · have hlen : 1 ≤ rest.length := List.length_pos.mpr (List.ne_nil_of_mem hu')
        have := ih hu'
        cases hP : P a with
        | true =>
            rw [List.filter_cons_of_pos (by simp [hP])]
            simp only [List.length_cons]
            omega
        | false =>
            rw [List.filter_cons_of_neg (by simp [hP])]
            simp only [List.length_cons]
            omega

theorem degree_le (g : Graph) (u : String)
    (hns : ∀ e ∈ g.edges, e.1 ≠ e.2) (hu : u ∈ g.nodes) :
    degree g u ≤ g.nodes.length - 1 := by
  have hself : hasEdge g.edges u u = false := by
    by_contra hc
    rw [Bool.not_eq_false, hasEdge_iff] at hc
    obtain ⟨e, he, hor⟩ := hc
    rcases hor with ⟨h1, h2⟩ | ⟨h1, h2⟩ <;> exact hns e he (h1.trans h2.symm)
  unfold degree
  rw [hself]
  simpa using filter_length_le_of_not g.nodes (fun v => hasEdge g.edges u v) u hu hself

theorem degreeCentrality_bounds (g : Graph)
    (hns : ∀ e ∈ g.edges, e.1 ≠ e.2) :
    ∀ x ∈ degreeCentrality g, 0 ≤ x.2 ∧ x.2 ≤ 1 := by
  intro x hx
  unfold degreeCentrality at hx
  split at hx
  · obtain ⟨n, _, rfl⟩ := List.mem_map.mp hx
    norm_num
  · obtain ⟨n, hn, rfl⟩ := List.mem_map.mp hx
    rename_i hlen
    push_neg at hlen
    have hd : degree g n ≤ g.nodes.length - 1 := degree_le g n hns hn
    have hpos : (0 : ℚ) < (g.nodes.length : ℚ) - 1 := by
      have : (2 : ℚ) ≤ (g.nodes.length : ℚ) := by exact_mod_cast hlen
      linarith
    constructor
    · positivity
    · rw [div_le_one hpos]
      have : ((degree g n : Nat) : ℚ) ≤ ((g.nodes.length - 1 : Nat) : ℚ) := by
        exact_mod_cast hd
      have hcast : ((g.nodes.length - 1 : Nat) : ℚ) = (g.nodes.length : ℚ) - 1 := by
        have : 1 ≤ g.nodes.length := by omega
        push_cast [this]
        ring
      linarith [hcast ▸ this]

theorem density_bounds (g : Graph) (hinv : GraphInv g)
    (hns : ∀ e ∈ g.edges, e.1 ≠ e.2) : 0 ≤ density g ∧ density g ≤ 1 := by
  unfold density
  split
  · norm_num
  · rename_i hcond
    push_neg at hcond
    obtain ⟨hm, hn⟩ := hcond
    have hn2 : 2 ≤ g.nodes.length := by omega
    have hb := edges_count_bound g hinv hns
    have hposn : (0 : ℚ) < (g.nodes.length : ℚ) * ((g.nodes.length : ℚ) - 1) := by
      have h2 : (2 : ℚ) ≤ (g.nodes.length : ℚ) := by exact_mod_cast hn2
      nlinarith
    constructor
    · positivity
    · rw [div_le_one hposn]
      have hcast : ((g.nodes.length * (g.nodes.length - 1) : Nat) : ℚ)
          = (g.nodes.length : ℚ) * ((g.nodes.length : ℚ) - 1) := by
        have h1 : 1 ≤ g.nodes.length := by omega
        push_cast [h1]
        ring
      have h2m : ((2 * g.edges.length : Nat) : ℚ)
          ≤ ((g.nodes.length * (g.nodes.length - 1) : Nat) : ℚ) := by
        exact_mod_cast hb
      rw [hcast] at h2m
      have : ((2 * g.edges.length : Nat) : ℚ) = 2 * (g.edges.length : ℚ) := by push_cast; ring
      linarith [this ▸ h2m]

/-- If no two distinct posts by the same author share a hashtag, the built
graph (from the empty graph) has no self-loops. -/
theorem buildNetwork_no_self_loops (data : List Post)
    (h : ∀ p ∈ data, ∀ q ∈ data, p ≠ q → p.user = q.user → sharesTag p q = false) :
    ∀ e ∈ (buildNetwork emptyGraph data).edges, e.1 ≠ e.2 := by
  intro e he hcon
  have hedge : hasEdge (buildNetwork emptyGraph data).edges e.1 e.1 = true := by
    rw [hasEdge_iff]
    exact ⟨e, he, Or.inl ⟨rfl, hcon.symm⟩⟩
  rcases outerLoop_hasEdge_elim data data emptyGraph e.1 e.1 hedge with h0 | hex
  · simp [hasEdge, emptyGraph] at h0
  · obtain ⟨p, hp, o, ho, hne, hst, hor⟩ := hex
    have huser : p.user = o.user := by
      rcases hor with ⟨h1, h2⟩ | ⟨h1, h2⟩
      · rw [← h1, ← h2]
      · rw [← h1, ← h2]
    rw [h p hp o ho hne huser] at hst
    cases hst

/-! ### Lemmas about the stable descending sort -/

theorem insDesc_perm {β : Type} [LinearOrder β] (x : α × β) (l : List (α × β)) :
    List.Perm (insDesc x l) (x :: l) := by
  induction l with
  | nil => exact List.Perm.refl _
  | cons y ys ih =>
      unfold insDesc
      split
      · exact List.Perm.refl _
      · exact (List.Perm.cons y ih).trans (List.Perm.swap x y ys)

theorem sortDesc_perm {β : Type} [LinearOrder β] (l : List (α × β)) :
    List.Perm (sortDesc l) l := by
  induction l with
  | nil => exact List.Perm.refl _
  | cons x xs ih => exact (insDesc_perm x (sortDesc xs)).trans (List.Perm.cons x ih)

theorem mem_insDesc {β : Type} [LinearOrder β] (x y : α × β) (l : List (α × β))
    (h : y ∈ insDesc x l) : y = x ∨ y ∈ l := by
  have := (insDesc_perm x l).mem_iff.mp h
  simpa using this

theorem insDesc_sorted {β : Type} [LinearOrder β] (x : α × β) (l : List (α × β))
    (h : List.Pairwise (fun a b => b.2 ≤ a.2) l) :
    List.Pairwise (fun a b : α × β => b.2 ≤ a.2) (insDesc x l) := by
  induction l with
  | nil => exact List.pairwise_singleton _ _
  | cons y ys ih =>
      rw [List.pairwise_cons] at h
      obtain ⟨hy, hys⟩ := h
      unfold insDesc
      split
      · rename_i hle
        rw [List.pairwise_cons]
        refine ⟨?_, List.pairwise_cons.mpr ⟨hy, hys⟩⟩
        intro z hz
        rcases List.mem_cons.mp hz with rfl | hz'
        · exact hle
        · exact le_trans (hy z hz') hle
      · rename_i hlt
        push_neg at hlt
        rw [List.pairwise_cons]
        refine ⟨?_, ih hys⟩
        intro z hz
        rcases mem_insDesc x z ys hz with rfl | hz'
        · exact le_of_lt hlt
        · exact hy z hz'

theorem sortDesc_sorted {β : Type} [LinearOrder β] (l : List (α × β)) :
    List.Pairwise (fun a b : α × β => b.2 ≤ a.2) (sortDesc l) := by
  induction l with
  | nil => exact List.Pairwise.nil
  | cons x xs ih => exact insDesc_sorted x (sortDesc xs) ih

theorem insDesc_filter_count {β : Type} [LinearOrder β] (x : α × β) (l : List (α × β))
    (c : β) :
    (insDesc x l).filter (fun p => decide (p.2 = c))
      = (x :: l).filter (fun p => decide (p.2 = c)) := by
  induction l with
  | nil => rfl
  | cons y ys ih =>
      unfold insDesc
      split
      · rfl
      · rename_i hlt
        push_neg at hlt
        by_cases hx : x.2 = c
        · have hy : ¬ (y.2 = c) := by
            intro hy
            rw [hx] at hlt
            rw [hy] at hlt
            exact lt_irrefl c hlt
          rw [List.filter_cons_of_neg (by simpa using hy), ih,
            List.filter_cons_of_pos (by simpa using hx),
            List.filter_cons_of_pos (by simpa using hx),
            List.filter_cons_of_neg (by simpa using hy)]
        · by_cases hy : y.2 = c
          · rw [List.filter_cons_of_pos (by simpa using hy), ih,
              List.filter_cons_of_neg (by simpa using hx),
              List.filter_cons_of_neg (by simpa using hx),
              List.filter_cons_of_pos (by simpa using hy)]
          · rw [List.filter_cons_of_neg (by simpa using hy), ih,
              List.filter_cons_of_neg (by simpa using hx),
              List.filter_cons_of_neg (by simpa using hx),
              List.filter_cons_of_neg (by simpa using hy)]

/-- Stability of the descending sort: within one count value, the sorted
list keeps the input order (ties broken by first-encountered order). -/
theorem sortDesc_filter_count {β : Type} [LinearOrder β] (l : List (α × β)) (c : β) :
    (sortDesc l).filter (fun p => decide (p.2 = c))
      = l.filter (fun p => decide (p.2 = c)) := by
  induction l with
  | nil => rfl
  | cons x xs ih =>
      show (insDesc x (sortDesc xs)).filter _ = _
      rw [insDesc_filter_count]
      by_cases hx : x.2 = c
      · rw [List.filter_cons_of_pos (by simpa using hx), ih,
          List.filter_cons_of_pos (by simpa using hx)]
      · rw [List.filter_cons_of_neg (by simpa using hx), ih,
          List.filter_cons_of_neg (by simpa using hx)]

/-! ### Lemmas about `keysInOrder` and `tally` -/

theorem keysInOrderAux_subset [DecidableEq α] (f : Nat) (l : List α) :
    ∀ k ∈ keysInOrderAux f l, k ∈ l := by
  induction f generalizing l with
  | zero => intro k hk; cases hk
  | succ g ih =>
      intro k hk
      cases l with
      | nil => cases hk
      | cons x xs =>
          rcases List.mem_cons.mp hk with rfl | hk'
          · exact List.mem_cons_self ..
          · exact List.mem_cons_of_mem _
              (List.mem_of_mem_filter (ih (xs.filter fun y => y ≠ x) k hk'))

theorem keysInOrder_subset [DecidableEq α] (l : List α) :
    ∀ k ∈ keysInOrder l, k ∈ l :=
  keysInOrderAux_subset l.length l

theorem keysInOrderAux_nodup [DecidableEq α] (f : Nat) (l : List α) :
    (keysInOrderAux f l).Nodup := by
  induction f generalizing l with
  | zero => exact List.nodup_nil
  | succ g ih =>
      cases l with
      | nil => exact List.nodup_nil
      | cons x xs =>
          rw [keysInOrderAux, List.nodup_cons]
          refine ⟨?_, ih _⟩
          intro hx
          have := keysInOrderAux_subset g _ x hx
          rw [List.mem_filter] at this
          simp at this

theorem keysInOrder_nodup [DecidableEq α] (l : List α) : (keysInOrder l).Nodup :=
  keysInOrderAux_nodup l.length l

theorem count_filter_split [DecidableEq α] (x : α) :
    ∀ ys : List α, (ys.filter fun y => y ≠ x).length + ys.count x = ys.length := by
  intro ys
  induction ys with
  | nil => rfl
  | cons a ys ihy =>
      by_cases h : a = x
      · subst h
        rw [List.filter_cons_of_neg (by simp), List.count_cons_self]
        simp only [List.length_cons]
        omega
      · rw [List.filter_cons_of_pos (by simpa using h),
          List.count_cons_of_ne (fun hc => h hc.symm)]
        simp only [List.length_cons]
        omega

theorem keysInOrderAux_counts_sum [DecidableEq α] (f : Nat) (l : List α)
    (hf : l.length ≤ f) :
    ((keysInOrderAux f l).map fun k => l.count k).sum = l.length := by
  induction f generalizing l with
  | zero =>
      have : l = [] := List.eq_nil_of_length_eq_zero (Nat.le_zero.mp hf)
      subst this
      rfl
  | succ g ih =>
      cases l with
      | nil => rfl
      | cons x xs =>
          rw [keysInOrderAux]
          simp only [List.map_cons, List.sum_cons]
          have hcount : ∀ k ∈ keysInOrderAux g (xs.filter fun y => y ≠ x),
              (x :: xs).count k = (xs.filter fun y => y ≠ x).count k := by
            intro k hk
            have hkx : k ≠ x := by
              have := keysInOrderAux_subset g _ k hk
              rw [List.mem_filter] at this
              simpa using this.2
            rw [List.count_cons_of_ne hkx, List.count_filter (by simpa using hkx)]
          have hmapeq :
              (keysInOrderAux g (xs.filter fun y => y ≠ x)).map
                  (fun k => (x :: xs).count k)
                = (keysInOrderAux g (xs.filter fun y => y ≠ x)).map
                  (fun k => (xs.filter fun y => y ≠ x).count k) := by
            apply List.map_congr_left
            intro k hk
            exact hcount k hk
          have hlen : (xs.filter fun y => y ≠ x).length ≤ g :=
            le_trans (List.length_filter_le _ _) (by simpa using hf)
          rw [hmapeq, ih _ hlen]
          have := count_filter_split x xs
          rw [List.count_cons_self]
          simp only [List.length_cons]
          omega

theorem tally_counts_sum [DecidableEq α] (l : List α) :
    ((tally l).map (fun p => p.2)).sum = l.length := by
  unfold tally keysInOrder
  rw [List.map_map]
  exact keysInOrderAux_counts_sum l.length l le_rfl

theorem sum_take_le (l : List Nat) (n : Nat) : (l.take n).sum ≤ l.sum := by
  conv_rhs => rw [← List.take_append_drop n l]
  rw [List.sum_append]
  omega

theorem sortDesc_counts_sum (l : List (α × Nat)) :
    ((sortDesc l).map (fun p : α × Nat => p.2)).sum = (l.map (fun p : α × Nat => p.2)).sum :=
  List.Perm.sum_eq (List.Perm.map _ (sortDesc_perm l))

theorem mostCommon_counts_le [DecidableEq α] (xs : List α) (n : Nat) :
    ((mostCommon xs n).map (fun p => p.2)).sum ≤ xs.length := by
  unfold mostCommon
  calc (((sortDesc (tally xs)).take n).map (fun p => p.2)).sum
      = (((sortDesc (tally xs)).map (fun p => p.2)).take n).sum := by
        rw [List.map_take]
    _ ≤ ((sortDesc (tally xs)).map (fun p => p.2)).sum := sum_take_le _ _
    _ = ((tally xs).map (fun p => p.2)).sum := sortDesc_counts_sum _
    _ = xs.length := tally_counts_sum _

theorem mostCommon_counts_eq [DecidableEq α] (xs : List α) (n : Nat)
    (h : (tally xs).length ≤ n) :
    ((mostCommon xs n).map (fun p => p.2)).sum = xs.length := by
  unfold mostCommon
  have hlen : (sortDesc (tally xs)).length ≤ n := by
    rw [(sortDesc_perm (tally xs)).length_eq]
    exact h
  rw [List.take_of_length_le hlen, sortDesc_counts_sum, tally_counts_sum]

/-! ### Timestamp-independence of the analyses (congruence lemmas) -/

/-- Two posts equal in every field except possibly the timestamp. -/
def eqExceptTs (p q : Post) : Prop :=
  p.platform = q.platform ∧ p.content = q.content ∧ p.user = q.user ∧
    p.engagement = q.engagement ∧ p.links = q.links ∧ p.hashtags = q.hashtags

theorem sharesTag_congr (p p' o o' : Post) (hp : eqExceptTs p p') (ho : eqExceptTs o o') :
    sharesTag p o = sharesTag p' o' := by
  unfold sharesTag
  rw [hp.2.2.2.2.2, ho.2.2.2.2.2]

theorem innerLoop_congr (p p' : Post) (hp : eqExceptTs p p')
    (full1 full2 : List Post) (h : List.Forall₂ eqExceptTs full1 full2)
    (hiff : ∀ o o', o ∈ full1 → o' ∈ full2 → eqExceptTs o o' → ((p = o) ↔ (p' = o')))
    (g : Graph) : innerLoop g p full1 = innerLoop g p' full2 := by
  induction h generalizing g with
  | nil => rfl
  | cons ho hrest ih =>
      rename_i o o' l1 l2
      unfold innerLoop
      have hcond : (p ≠ o) ↔ (p' ≠ o') :=
        not_congr (hiff o o' (List.mem_cons_self ..) (List.mem_cons_self ..) ho)
      have hst := sharesTag_congr p p' o o' hp ho
      have huser : p.user = p'.user := hp.2.2.1
      have houser : o.user = o'.user := ho.2.2.1
      have hgeq :
          (if p ≠ o then (if sharesTag p o then addEdge g p.user o.user else g) else g)
            = (if p' ≠ o' then
                (if sharesTag p' o' then addEdge g p'.user o'.user else g) else g) := by
        by_cases hne : p ≠ o
        · rw [if_pos hne, if_pos (hcond.mp hne), huser, houser, hst]
        · rw [if_neg hne, if_neg (fun hc => hne (hcond.mpr hc))]
      rw [hgeq]
      exact ih
        (fun o1 o1' h1 h1' he =>
          hiff _ _ (List.mem_cons_of_mem _ h1) (List.mem_cons_of_mem _ h1') he) _

theorem outerLoop_congr (full1 full2 : List Post) (hf : List.Forall₂ eqExceptTs full1 full2)
    (hiff : ∀ p p', p ∈ full1 → p' ∈ full2 → eqExceptTs p p' →
      ∀ o o', o ∈ full1 → o' ∈ full2 → eqExceptTs o o' → ((p = o) ↔ (p' = o')))
    (rem1 rem2 : List Post) (hr : List.Forall₂ eqExceptTs rem1 rem2)
    (hrem1 : ∀ p ∈ rem1, p ∈ full1) (hrem2 : ∀ p ∈ rem2, p ∈ full2) (g : Graph) :
    outerLoop full1 g rem1 = outerLoop full2 g rem2 := by
  induction hr generalizing g with
  | nil => rfl
  | cons hp hrest ih =>
      rename_i p p' l1 l2
      unfold outerLoop
      have huser : p'.user = p.user := hp.2.2.1.symm
      rw [huser]
      rw [innerLoop_congr p p' hp full1 full2 hf
        (hiff p p' (hrem1 p (List.mem_cons_self ..)) (hrem2 p' (List.mem_cons_self ..)) hp)]
      exact ih (fun q hq => hrem1 q (List.mem_cons_of_mem _ hq))
        (fun q hq => hrem2 q (List.mem_cons_of_mem _ hq)) _

theorem buildNetwork_congr (data1 data2 : List Post)
    (h : List.Forall₂ eqExceptTs data1 data2)
    (hiff : ∀ p p', p ∈ data1 → p' ∈ data2 → eqExceptTs p p' →
      ∀ o o', o ∈ data1 → o' ∈ data2 → eqExceptTs o o' → ((p = o) ↔ (p' = o')))
    (g : Graph) : buildNetwork g data1 = buildNetwork g data2 :=
  outerLoop_congr data1 data2 h hiff data1 data2 h (fun _ hp => hp) (fun _ hp => hp) g

theorem forall₂_map {γ : Type} (R : Post → Post → Prop) (l : List γ) (f g : γ → Post)
    (h : ∀ i ∈ l, R (f i) (g i)) : List.Forall₂ R (l.map f) (l.map g) := by
  induction l with
  | nil => exact List.Forall₂.nil
  | cons i rest ih =>
      exact List.Forall₂.cons (h i (List.mem_cons_self ..))
        (ih fun j hj => h j (List.mem_cons_of_mem _ hj))

theorem collect_eqExceptTs (ts1 ts2 : Nat → String) (k pf : String) (N : Nat) :
    List.Forall₂ eqExceptTs (collectPosts ts1 k pf N) (collectPosts ts2 k pf N) := by
  unfold collectPosts
  apply forall₂_map
  intro i _
  exact ⟨rfl, rfl, rfl, rfl, rfl, rfl⟩

theorem mem_collectPosts (ts : Nat → String) (k pf : String) (N : Nat) (p : Post)
    (hp : p ∈ collectPosts ts k pf N) : ∃ i, i < N ∧ p = genPost ts k pf i := by
  unfold collectPosts at hp
  obtain ⟨i, hi, rfl⟩ := List.mem_map.mp hp
  exact ⟨i, List.mem_range.mp hi, rfl⟩

theorem genPost_eng_inj (ts ts' : Nat → String) (k k' pf pf' : String) (i j : Nat)
    (h : (genPost ts k pf i).engagement = (genPost ts' k' pf' j).engagement) : i = j := by
  have hl : i * 10 = j * 10 := congrArg Engagement.likes h
  omega

theorem collect_eq_iff_eng (ts : Nat → String) (k pf : String) (N : Nat) (p o : Post)
    (hp : p ∈ collectPosts ts k pf N) (ho : o ∈ collectPosts ts k pf N) :
    p = o ↔ p.engagement = o.engagement := by
  constructor
  · intro h; rw [h]
  · intro h
    obtain ⟨i, _, rfl⟩ := mem_collectPosts ts k pf N p hp
    obtain ⟨j, _, rfl⟩ := mem_collectPosts ts k pf N o ho
    rw [genPost_eng_inj ts ts k k pf pf i j h]

theorem collect_hiff (ts1 ts2 : Nat → String) (k pf : String) (N : Nat) :
    ∀ p p', p ∈ collectPosts ts1 k pf N → p' ∈ collectPosts ts2 k pf N → eqExceptTs p p' →
      ∀ o o', o ∈ collectPosts ts1 k pf N → o' ∈ collectPosts ts2 k pf N → eqExceptTs o o' →
        ((p = o) ↔ (p' = o')) := by
  intro p p' hp hp' hpe o o' ho ho' hoe
  rw [collect_eq_iff_eng ts1 k pf N p o hp ho,
    collect_eq_iff_eng ts2 k pf N p' o' hp' ho',
    hpe.2.2.2.1, hoe.2.2.2.1]

/-- The graph built from a synthetic batch does not depend on the clock. -/
theorem buildNetwork_collect_ts (ts1 ts2 : Nat → String) (k pf : String) (N : Nat)
    (g : Graph) :
    buildNetwork g (collectPosts ts1 k pf N) = buildNetwork g (collectPosts ts2 k pf N) :=
  buildNetwork_congr _ _ (collect_eqExceptTs ts1 ts2 k pf N)
    (collect_hiff ts1 ts2 k pf N) g

theorem map_collectPosts (ts1 ts2 : Nat → String) (k pf : String) (N : Nat) {γ : Type}
    (f : Post → γ) (h : ∀ i, f (genPost ts1 k pf i) = f (genPost ts2 k pf i)) :
    (collectPosts ts1 k pf N).map f = (collectPosts ts2 k pf N).map f := by
  unfold collectPosts
  rw [List.map_map, List.map_map]
  apply List.map_congr_left
  intro i _
  exact h i

theorem collectPosts_length (ts : Nat → String) (k pf : String) (N : Nat) :
    (collectPosts ts k pf N).length = N := by
  unfold collectPosts
  rw [List.length_map, List.length_range]

theorem identifyNarratives_collect_ts (ts1 ts2 : Nat → String) (k pf : String) (N : Nat) :
    identifyNarratives (collectPosts ts1 k pf N)
      = identifyNarratives (collectPosts ts2 k pf N) := by
  unfold identifyNarratives narrativeWords allHashtags
  rw [map_collectPosts ts1 ts2 k pf N (fun p => p.content) (fun i => rfl),
    List.flatMap_def, List.flatMap_def,
    map_collectPosts ts1 ts2 k pf N (fun p => p.hashtags) (fun i => rfl)]

theorem analyzeEngagement_collect_ts (ts1 ts2 : Nat → String) (k pf : String) (N : Nat) :
    analyzeEngagement (collectPosts ts1 k pf N)
      = analyzeEngagement (collectPosts ts2 k pf N) := by
  unfold analyzeEngagement
  rw [collectPosts_length, collectPosts_length,
    map_collectPosts ts1 ts2 k pf N (fun p => p.engagement.likes) (fun i => rfl),
    map_collectPosts ts1 ts2 k pf N (fun p => p.engagement.shares) (fun i => rfl),
    map_collectPosts ts1 ts2 k pf N
      (fun p => p.engagement.likes + p.engagement.shares) (fun i => rfl)]

theorem generateReport_core (s : TrackerState) (now : String) :
    ((generateReportM s now).2).map reportCore
      = (analyzeEngagement s.data).map fun eng =>
          (s.data.length, networkMetrics (buildNetwork s.network s.data),
            identifyNarratives s.data, eng) := by
  unfold generateReportM analyzeNetworkM identifyNarrativesM analyzeEngagementM
  cases h : analyzeEngagement s.data <;> simp [h, reportCore]

/-! ### The claims -/

/-- A concrete post used in witnesses and counterexamples. -/
def exPost (c u : String) (n : Nat) (tags : List String) : Post :=
  { timestamp := "2026-01-01T00:00:00"
    platform := "twitter"
    content := c
    user := u
    engagement := { likes := n, shares := n }
    links := []
    hashtags := tags }

/-- C1: on a fresh tracker, for every post batch the graph built by
`analyze_network` (a) has every post's author as a node, (b) has an edge
between the authors of every two value-distinct posts whose hashtag sets
intersect, and (c) contains only such edges — in particular no edge arises
from comparing a post against itself. -/
theorem claim_C1 (data : List Post) :
    (∀ p ∈ data, p.user ∈ (buildNetwork emptyGraph data).nodes) ∧
    (∀ p q, p ∈ data → q ∈ data → p ≠ q → sharesTag p q = true →
      hasEdge (buildNetwork emptyGraph data).edges p.user q.user = true) ∧
    (∀ u v, hasEdge (buildNetwork emptyGraph data).edges u v = true →
      ∃ p q, p ∈ data ∧ q ∈ data ∧ p ≠ q ∧ sharesTag p q = true ∧
        p.user = u ∧ q.user = v) := by
  refine ⟨?_, ?_, ?_⟩
  · intro p hp
    exact outerLoop_mem_user data data emptyGraph p hp
  · intro p q hp hq hne hst
    exact outerLoop_complete data data emptyGraph p q hp hq hne hst
  · intro u v h
    rcases outerLoop_hasEdge_elim data data emptyGraph u v h with
      h0 | ⟨p, hp, o, ho, hne, hst, hor⟩
    · simp [hasEdge, emptyGraph] at h0
    · rcases hor with ⟨h1, h2⟩ | ⟨h1, h2⟩
      · exact ⟨p, o, hp, ho, hne, hst, h1.symm, h2.symm⟩
      · exact ⟨o, p, ho, hp, fun hc => hne hc.symm, sharesTag_symm p o hst,
          h1.symm, h2.symm⟩

/-- Witness for C1 at a concrete batch: two posts by different authors
sharing `#x` produce the edge between the two authors. -/
theorem claim_C1_witness :
    hasEdge (buildNetwork emptyGraph
        [exPost "a" "ua" 0 ["#x"], exPost "b" "ub" 1 ["#x"]]).edges
      "ua" "ub" = true := by
  have h := (claim_C1 [exPost "a" "ua" 0 ["#x"], exPost "b" "ub" 1 ["#x"]]).2.1
    (exPost "a" "ua" 0 ["#x"]) (exPost "b" "ub" 1 ["#x"])
    (by simp) (by simp) (by decide) (by decide)
  exact h

/-- C2 counterexample: a single-post batch yields a one-node graph, and
networkx's `degree_centrality` assigns that node centrality `1`, not `0` as
the claim states for graphs with at most one node. -/
theorem claim_C2_counterexample :
    degreeCentrality (buildNetwork emptyGraph [exPost "a" "ua" 0 ["#x"]])
      = [("ua", 1)] ∧ ((1 : ℚ) ≠ 0) := by
  constructor
  · decide
  · norm_num

/-- C2 amended: for every built graph, degree centrality is degree divided
by (node count − 1) when the graph has at least two nodes, and equals `1`
(not `0`) for every node when the graph has at most one node. -/
theorem claim_C2_amended (data : List Post) :
    (2 ≤ (buildNetwork emptyGraph data).nodes.length →
      degreeCentrality (buildNetwork emptyGraph data)
        = (buildNetwork emptyGraph data).nodes.map fun n =>
            (n, (degree (buildNetwork emptyGraph data) n : ℚ)
                  / (((buildNetwork emptyGraph data).nodes.length : ℚ) - 1))) ∧
    ((buildNetwork emptyGraph data).nodes.length ≤ 1 →
      ∀ x ∈ degreeCentrality (buildNetwork emptyGraph data), x.2 = 1) := by
  constructor
  · intro h
    unfold degreeCentrality
    rw [if_neg (by omega)]
  · intro h x hx
    unfold degreeCentrality at hx
    rw [if_pos h] at hx
    obtain ⟨n, _, rfl⟩ := List.mem_map.mp hx
    rfl

/-- Witness for the amended C2 at a concrete two-node graph. -/
theorem claim_C2_witness :
    degreeCentrality (buildNetwork emptyGraph
        [exPost "a" "ua" 0 ["#x"], exPost "b" "ub" 1 ["#y"]])
      = (buildNetwork emptyGraph
          [exPost "a" "ua" 0 ["#x"], exPost "b" "ub" 1 ["#y"]]).nodes.map fun n =>
          (n, (degree (buildNetwork emptyGraph
                [exPost "a" "ua" 0 ["#x"], exPost "b" "ub" 1 ["#y"]]) n : ℚ)
                / (((buildNetwork emptyGraph
                    [exPost "a" "ua" 0 ["#x"], exPost "b" "ub" 1 ["#y"]]).nodes.length : ℚ)
                    - 1)) :=
  (claim_C2_amended [exPost "a" "ua" 0 ["#x"], exPost "b" "ub" 1 ["#y"]]).1 (by decide)

/-- C3: `analyze_engagement` raises (division by zero) exactly on the empty
batch, and on a non-empty batch returns the like and share totals and the
average of likes+shares per post. -/
theorem claim_C3 (data : List Post) :
    (analyzeEngagement data = none ↔ data = []) ∧
    (∀ s, analyzeEngagement data = some s →
      s.total_likes = (data.map fun p => p.engagement.likes).sum ∧
      s.total_shares = (data.map fun p => p.engagement.shares).sum ∧
      s.avg_engagement =
        (((data.map fun p => p.engagement.likes + p.engagement.shares).sum : Nat) : ℚ)
          / (data.length : ℚ)) := by
  constructor
  · unfold analyzeEngagement
    constructor
    · intro h
      split at h
      · rwa [List.length_eq_zero] at *

      · cases h
    · intro h
      rw [if_pos (by simp [h])]
  · intro s hs
    unfold analyzeEngagement at hs
    split at hs
    · cases hs
    · cases hs
      exact ⟨rfl, rfl, rfl⟩

/-- Witness for C3 at a concrete one-post batch. -/
theorem claim_C3_witness :
    ({ total_likes := 4, total_shares := 4, avg_engagement := 8 } :
        EngagementStats).total_likes
        = ([exPost "a" "ua" 4 ["#x"]].map fun p => p.engagement.likes).sum ∧
      ({ total_likes := 4, total_shares := 4, avg_engagement := 8 } :
        EngagementStats).total_shares
        = ([exPost "a" "ua" 4 ["#x"]].map fun p => p.engagement.shares).sum ∧
      ({ total_likes := 4, total_shares := 4, avg_engagement := 8 } :
        EngagementStats).avg_engagement
        = ((([exPost "a" "ua" 4 ["#x"]].map
              fun p => p.engagement.likes + p.engagement.shares).sum : Nat) : ℚ)
            / (([exPost "a" "ua" 4 ["#x"]] : List Post).length : ℚ) :=
  (claim_C3 [exPost "a" "ua" 4 ["#x"]]).2
    { total_likes := 4, total_shares := 4, avg_engagement := 8 }
    (by norm_num [analyzeEngagement, exPost])

/-- C4: for every count `N ≥ 1`, the engagement aggregates of the synthetic
batch are `total_likes = Σ (10 i)`, `total_shares = Σ (2 i)` for `i ∈ [0,N)`
and `avg_engagement = Σ (12 i) / N`. -/
theorem claim_C4 (ts : Nat → String) (k pf : String) (N : Nat) (h : 1 ≤ N) :
    analyzeEngagement (collectPosts ts k pf N) = some
      { total_likes := ((List.range N).map fun i => 10 * i).sum
        total_shares := ((List.range N).map fun i => 2 * i).sum
        avg_engagement :=
          ((((List.range N).map fun i => 12 * i).sum : Nat) : ℚ) / (N : ℚ) } := by
  unfold analyzeEngagement
  rw [if_neg (by rw [collectPosts_length]; omega)]
  unfold collectPosts
  congr 1
  rw [List.map_map, List.map_map, List.map_map, List.length_map, List.length_range]
  congr 1
  · rw [List.map_congr_left]
    intro i _
    show i * 10 = 10 * i
    ring
  · rw [List.map_congr_left]
    intro i _
    show i * 2 = 2 * i
    ring
  · congr 2
    rw [List.map_congr_left]
    intro i _
    show i * 10 + i * 2 = 12 * i
    ring

/-- Witness for C4 at `N = 5`: totals 100 and 20, average 24. -/
theorem claim_C4_witness :
    analyzeEngagement (collectPosts (fun _ => "T") "election2024" "twitter" 5)
      = some { total_likes := 100, total_shares := 20, avg_engagement := 24 } := by
  rw [claim_C4 (fun _ => "T") "election2024" "twitter" 5 (by omega)]
  norm_num [List.range_succ]

/-- C5 counterexample: the graph persists across calls.  Analyzing the batch
`[a,b]` (authors sharing `#x`) and then analyzing the single-post batch `[c]`
on the same tracker yields density `1/3` (the old nodes and edge are still
there), while a fresh tracker analyzing `[c]` alone yields density `0`. -/
theorem claim_C5_counterexample :
    (analyzeNetworkM
        { data := [exPost "c" "v" 2 ["#x"]]
          network := (analyzeNetworkM
            { data := [exPost "a" "ua" 0 ["#x"], exPost "b" "ub" 1 ["#x"]]
              network := emptyGraph }).1.network }).2.density = 1 / 3 ∧
    (analyzeNetworkM
        { data := [exPost "c" "v" 2 ["#x"]]
          network := emptyGraph }).2.density = 0 ∧
    ((1 / 3 : ℚ) ≠ 0) := by
  have hg1 : (analyzeNetworkM
      { data := [exPost "a" "ua" 0 ["#x"], exPost "b" "ub" 1 ["#x"]]
        network := emptyGraph }).1.network
      = { nodes := ["ua", "ub"], edges := [("ua", "ub")] } := by decide
  refine ⟨?_, ?_, by norm_num⟩
  · rw [hg1]
    simp only [analyzeNetworkM, networkMetrics]
    rw [show buildNetwork { nodes := ["ua", "ub"], edges := [("ua", "ub")] }
        [exPost "c" "v" 2 ["#x"]]
        = { nodes := ["ua", "ub", "v"], edges := [("ua", "ub")] } from by decide]
    norm_num [density]
  · simp only [analyzeNetworkM, networkMetrics]
    rw [show buildNetwork emptyGraph [exPost "c" "v" 2 ["#x"]]
        = { nodes := ["v"], edges := [] } from by decide]
    norm_num [density]

/-- C5 amended: the graph is persistent instance state with incremental
updates: `analyze_network` merges the current batch's nodes and edges into
the existing graph and computes the metrics of the merged graph, so earlier
batches' nodes and edges persist; only on a fresh tracker (empty prior
graph) is the analyzed graph a function of the current batch alone. -/
theorem claim_C5_amended (s : TrackerState) :
    (analyzeNetworkM s).2 = networkMetrics (buildNetwork s.network s.data) ∧
    (∀ u, u ∈ s.network.nodes → u ∈ (analyzeNetworkM s).1.network.nodes) ∧
    (∀ u v, hasEdge s.network.edges u v = true →
      hasEdge (analyzeNetworkM s).1.network.edges u v = true) := by
  refine ⟨rfl, ?_, ?_⟩
  · intro u hu
    exact outerLoop_mem_mono _ _ _ _ hu
  · intro u v h
    exact outerLoop_hasEdge_mono _ _ _ _ _ h

/-- Witness for the amended C5: a node present before the second analysis is
still a node of the analyzed graph. -/
theorem claim_C5_witness :
    "ua" ∈ (analyzeNetworkM
      { data := [exPost "c" "v" 2 ["#x"]]
        network := { nodes := ["ua"], edges := [] } }).1.network.nodes :=
  (claim_C5_amended
    { data := [exPost "c" "v" 2 ["#x"]]
      network := { nodes := ["ua"], edges := [] } }).2.1 "ua" (by simp)

/-- C6 counterexample: with two distinct posts by one author sharing a
hashtag, the built graph gets a self-loop `("u","u")` next to the edge
`("u","v")`; networkx's density of that graph is `2 ∉ [0,1]`, although the
batch is non-empty — the claimed invariant fails. -/
theorem claim_C6_counterexample :
    (networkMetrics (buildNetwork emptyGraph
        [exPost "a" "u" 0 ["#x"], exPost "b" "u" 1 ["#x"],
          exPost "c" "v" 2 ["#x"]])).density = 2 ∧
    ¬ ((2 : ℚ) ≤ 1) := by
  refine ⟨?_, by norm_num⟩
  simp only [networkMetrics]
  rw [show buildNetwork emptyGraph
      [exPost "a" "u" 0 ["#x"], exPost "b" "u" 1 ["#x"], exPost "c" "v" 2 ["#x"]]
      = { nodes := ["u", "v"], edges := [("u", "u"), ("u", "v")] } from by decide]
  norm_num [density]

/-- C6 amended: for every non-empty batch in which no two distinct posts by
the same author share a hashtag (so the built graph has no self-loops),
every centrality value returned by `analyze_network` lies in `[0,1]` and the
density lies in `[0,1]`. -/
theorem claim_C6_amended (data : List Post) (_hne : data ≠ [])
    (h : ∀ p ∈ data, ∀ q ∈ data, p ≠ q → p.user = q.user → sharesTag p q = false) :
    (∀ x ∈ (networkMetrics (buildNetwork emptyGraph data)).central_nodes,
      0 ≤ x.2 ∧ x.2 ≤ 1) ∧
    0 ≤ (networkMetrics (buildNetwork emptyGraph data)).density ∧
    (networkMetrics (buildNetwork emptyGraph data)).density ≤ 1 := by
  have hinv := graphInv_buildNetwork emptyGraph data graphInv_empty
  have hns := buildNetwork_no_self_loops data h
  refine ⟨?_, (density_bounds _ hinv hns).1, (density_bounds _ hinv hns).2⟩
  intro x hx
  have hx' : x ∈ degreeCentrality (buildNetwork emptyGraph data) := by
    have h1 : x ∈ sortDesc (degreeCentrality (buildNetwork emptyGraph data)) :=
      List.mem_of_mem_take hx
    exact (sortDesc_perm _).mem_iff.mp h1
  exact degreeCentrality_bounds _ hns x hx'

/-- Witness for the amended C6 at a concrete two-author batch. -/
theorem claim_C6_witness :
    0 ≤ (networkMetrics (buildNetwork emptyGraph
        [exPost "a" "ua" 0 ["#x"], exPost "b" "ub" 1 ["#x"]])).density ∧
    (networkMetrics (buildNetwork emptyGraph
        [exPost "a" "ua" 0 ["#x"], exPost "b" "ub" 1 ["#x"]])).density ≤ 1 :=
  (claim_C6_amended [exPost "a" "ua" 0 ["#x"], exPost "b" "ub" 1 ["#x"]]
    (by decide) (by decide)).2

/-- The concrete post of the C7 counterexample: its content tokenizes into
21 distinct words. -/
def wordsPost : Post := exPost "a b c d e f g h i j k l m n o p q r s t u" "u" 0 []

/-- C7 counterexample: with 21 distinct words the returned word-frequency
list is truncated to the 20 most frequent bins, whose counts sum to 20,
while the input has 21 word-token occurrences — the sum clause of the claim
fails. -/
theorem claim_C7_counterexample :
    (((identifyNarratives [wordsPost]).common_words.map fun p => p.2).sum = 20) ∧
    (narrativeWords [wordsPost]).length = 21 ∧ (20 ≠ 21) := by
  refine ⟨?_, ?_, by omega⟩
  · decide
  · decide

/-- C7 amended: the word and hashtag frequency lists are sorted by
descending count with ties in first-encountered (counter insertion) order;
the counts across the returned bins sum to at most the total number of
word-token/hashtag occurrences, with equality whenever the number of
distinct words is at most 20 (hashtags: at most 10) so that nothing is
truncated. -/
theorem claim_C7_amended (data : List Post) :
    List.Pairwise (fun a b : String × Nat => b.2 ≤ a.2)
        (identifyNarratives data).common_words ∧
    List.Pairwise (fun a b : String × Nat => b.2 ≤ a.2)
        (identifyNarratives data).common_hashtags ∧
    (∀ c, (sortDesc (tally (narrativeWords data))).filter (fun p => decide (p.2 = c))
        = (tally (narrativeWords data)).filter (fun p => decide (p.2 = c))) ∧
    (∀ c, (sortDesc (tally (allHashtags data))).filter (fun p => decide (p.2 = c))
        = (tally (allHashtags data)).filter (fun p => decide (p.2 = c))) ∧
    (((identifyNarratives data).common_words.map fun p => p.2).sum
        ≤ (narrativeWords data).length) ∧
    ((tally (narrativeWords data)).length ≤ 20 →
      ((identifyNarratives data).common_words.map fun p => p.2).sum
        = (narrativeWords data).length) ∧
    (((identifyNarratives data).common_hashtags.map fun p => p.2).sum
        ≤ (allHashtags data).length) ∧
    ((tally (allHashtags data)).length ≤ 10 →
      ((identifyNarratives data).common_hashtags.map fun p => p.2).sum
        = (allHashtags data).length) := by
  refine ⟨?_, ?_, ?_, ?_, ?_, ?_, ?_, ?_⟩
  · exact List.Pairwise.sublist (List.take_sublist _ _) (sortDesc_sorted _)
  · exact List.Pairwise.sublist (List.take_sublist _ _) (sortDesc_sorted _)
  · intro c
    exact sortDesc_filter_count _ c
  · intro c
    exact sortDesc_filter_count _ c
  · exact mostCommon_counts_le _ _
  · intro h
    exact mostCommon_counts_eq _ _ h
  · exact mostCommon_counts_le _ _
  · intro h
    exact mostCommon_counts_eq _ _ h

/-- Witness for the amended C7 at a concrete batch whose words and hashtags
are not truncated: the bin counts sum to the occurrence totals. -/
theorem claim_C7_witness :
    ((identifyNarratives [exPost "ab ab zz" "u" 0 ["#x", "#y"]]).common_words.map
        fun p => p.2).sum
      = (narrativeWords [exPost "ab ab zz" "u" 0 ["#x", "#y"]]).length ∧
    ((identifyNarratives [exPost "ab ab zz" "u" 0 ["#x", "#y"]]).common_hashtags.map
        fun p => p.2).sum
      = (allHashtags [exPost "ab ab zz" "u" 0 ["#x", "#y"]]).length :=
  ⟨(claim_C7_amended [exPost "ab ab zz" "u" 0 ["#x", "#y"]]).2.2.2.2.2.1 (by decide),
   (claim_C7_amended [exPost "ab ab zz" "u" 0 ["#x", "#y"]]).2.2.2.2.2.2.2 (by decide)⟩

/-- C8: for every batch of `M` posts (including `M = 0`), `export_data`
writes exactly `M` data rows plus one header row, the header being
`[timestamp, platform, content, user, engagement, links, hashtags]` in that
order. -/
theorem claim_C8 (data : List Post) :
    (exportData data).length = data.length + 1 ∧
    (exportData data).head? = some ["timestamp", "platform", "content", "user",
      "engagement", "links", "hashtags"] ∧
    (exportData data).tail = data.map csvRow := by
  refine ⟨?_, rfl, rfl⟩
  unfold exportData
  rw [List.length_cons, List.length_map]

/-- C9: `identify_narratives` and `analyze_engagement` are pure readers:
they leave the whole tracker state — both `self.data` and `self.network` —
unchanged. -/
theorem claim_C9 (s : TrackerState) :
    (identifyNarrativesM s).1 = s ∧ (analyzeEngagementM s).1 = s :=
  ⟨rfl, rfl⟩

/-- C10: two runs of `collect_posts` + `generate_report` with the same
keywords, platform and count — but arbitrary clocks for the per-post
timestamps and the report timestamps — produce reports that agree on every
field except the timestamp (`none` in both runs when the batch is empty). -/
theorem claim_C10 (ts1 ts2 : Nat → String) (now1 now2 k pf : String) (N : Nat) :
    ((generateReportM (collectPostsM initTracker ts1 k pf N) now1).2).map reportCore
      = ((generateReportM (collectPostsM initTracker ts2 k pf N) now2).2).map
          reportCore := by
  rw [generateReport_core, generateReport_core]
  simp only [collectPostsM, initTracker]
  rw [analyzeEngagement_collect_ts ts1 ts2 k pf N]
  have hg : buildNetwork emptyGraph (collectPosts ts1 k pf N)
      = buildNetwork emptyGraph (collectPosts ts2 k pf N) :=
    buildNetwork_collect_ts ts1 ts2 k pf N emptyGraph
  have hn := identifyNarratives_collect_ts ts1 ts2 k pf N
  have hl : (collectPosts ts1 k pf N).length = (collectPosts ts2 k pf N).length := by
    rw [collectPosts_length, collectPosts_length]
  congr 1
  funext eng
  rw [hl, hn]
  show (_, networkMetrics (buildNetwork emptyGraph (collectPosts ts1 k pf N)), _, _)
    = (_, networkMetrics (buildNetwork emptyGraph (collectPosts ts2 k pf N)), _, _)
  rw [hg]

end Tracker
